import Mathlib

set_option maxRecDepth 10000

/-!
Verification development for the Debug Slicer multi-region sandbox engine.

The model below is a shallow embedding of the multi-region variant of the
extension (the second document in the source file): the separator grammar
(SEPARATOR_REGEX), the buffer renderer in openUnifiedSandbox, the parser,
the guard, the composite edit and the shift calculus in
applySandboxSegmentsToOriginal, the symbol search in findSymbolAtLine, the
range merge in openUnifiedSandbox, and the accept / discard / live-sync
lifecycle commands.  Text is modelled as `List Char`, a document as its
list of lines, JS numbers as `Int`.
-/

namespace RegionSync

/-- The fixed part of the separator line up to the region id:
the constant text of SEPARATOR_REGEX before the capture group. -/
def sepHeadLit : List Char := "/* ✂️ --- DEBUG SLICE: ".data

/-- The stem every region id starts with, per the capture group. -/
def sepIdStem : List Char := "region_".data

/-- The constant text of SEPARATOR_REGEX between the id and the line break. -/
def sepCloseLit : List Char := " --- ✂️ */".data

/-- The whole constant run a separator match must begin with. -/
def sepStem : List Char := sepHeadLit ++ sepIdStem

/-- `stripLead? pat l` removes the literal `pat` from the front of `l`,
or fails.  This is the primitive the regex-literal matching is built from. -/
def stripLead? : List Char → List Char → Option (List Char)
  | [], l => some l
  | _ :: _, [] => none
  | p :: ps, c :: cs => if c = p then stripLead? ps cs else none

/-- Greedy run of decimal digits, as the `d+` part of the separator regex. -/
def takeDigits : List Char → List Char × List Char
  | [] => ([], [])
  | c :: cs =>
    if c.isDigit then ((c :: (takeDigits cs).1), (takeDigits cs).2)
    else ([], c :: cs)

/-- Match SEPARATOR_REGEX at the head of `l`: the literal head, the id stem,
one or more digits, the literal close, then an optional CR and a LF.
Returns the captured id and the text after the separator line. -/
def matchSep (l : List Char) : Option (List Char × List Char) :=
  (stripLead? sepStem l).bind fun r1 =>
    if (takeDigits r1).1.isEmpty then none
    else
      (stripLead? sepCloseLit (takeDigits r1).2).bind fun r3 =>
        if r3.take 2 = ['\r', '\n'] then some (sepIdStem ++ (takeDigits r1).1, r3.drop 2)
        else if r3.take 1 = ['\n'] then some (sepIdStem ++ (takeDigits r1).1, r3.drop 1)
        else none

/-- One left-to-right, non-overlapping scan for separator matches, as
`String.split` with a global regex performs: returns the text before the
first separator and, per separator, its id and the raw text that follows it
up to the next separator.  Fuel-driven so that it computes by reduction;
`splitSep` supplies enough fuel. -/
def splitLoop : Nat → List Char → List Char → List Char × List (List Char × List Char)
  | _, [], acc => (acc.reverse, [])
  | 0, l, acc => (acc.reverse ++ l, [])
  | fuel + 1, c :: cs, acc =>
    match matchSep (c :: cs) with
    | some (id, rest) =>
      (acc.reverse, (id, (splitLoop fuel rest []).1) :: (splitLoop fuel rest []).2)
    | none => splitLoop fuel cs (c :: acc)

/-- `sandboxText.split(SEPARATOR_REGEX)` seen as preamble plus (id, chunk) pairs. -/
def splitSep (l : List Char) : List Char × List (List Char × List Char) :=
  splitLoop l.length l []

/-- `code.replace(/\r?\n\r?\n$/, '')`: remove the leftmost match of one
optional-CR blank-line pair anchored at the end.  The leftmost match is
the longest of the four suffix shapes below, checked longest first. -/
def stripTrailing (l : List Char) : List Char :=
  let r := l.reverse
  if r.take 4 = ['\n', '\r', '\n', '\r'] then (r.drop 4).reverse
  else if r.take 3 = ['\n', '\n', '\r'] then (r.drop 3).reverse
  else if r.take 3 = ['\n', '\r', '\n'] then (r.drop 3).reverse
  else if r.take 2 = ['\n', '\n'] then (r.drop 2).reverse
  else l

/-- The parse phase of applySandboxSegmentsToOriginal: split on the
separator and strip the trailing blank-line pair from every chunk. -/
def parsePairs (text : List Char) : List (List Char × List Char) :=
  (splitSep text).2.map fun p => (p.1, stripTrailing p.2)

/-- The region ids the parse phase reads out of the buffer, in order. -/
def parsedIds (text : List Char) : List (List Char) :=
  (splitSep text).2.map fun p => p.1

/-- `parsedCodeBlocks.size`: a JS Map keyed by id holds one entry per
distinct id, later `set` calls overwriting earlier ones. -/
def mapSize (pairs : List (List Char × List Char)) : Nat :=
  (pairs.map fun p => p.1).dedup.length

/-- `parsedCodeBlocks.get k`: the value of the last `set` for key `k`. -/
def lookupLast (pairs : List (List Char × List Char)) (k : List Char) : Option (List Char) :=
  pairs.foldl (fun acc p => if p.1 = k then some p.2 else acc) none

/-- `text.split(/\r?\n/)`: CRLF or LF breaks a line, a lone CR does not. -/
def splitLines : List Char → List (List Char)
  | [] => [[]]
  | '\r' :: '\n' :: rest => [] :: splitLines rest
  | '\n' :: rest => [] :: splitLines rest
  | c :: rest =>
    match splitLines rest with
    | [] => [[c]]
    | l :: ls => (c :: l) :: ls

/-- The two newline characters the renderer appends after each code block. -/
def nl2 : List Char := ['\n', '\n']

/-- One region as rendered into the sandbox buffer by openUnifiedSandbox:
separator line, the region's text, then a blank-line pair. -/
def renderRegion (id code : List Char) : List Char :=
  sepHeadLit ++ id ++ sepCloseLit ++ '\n' :: (code ++ nl2)

/-- The whole sandbox buffer text for a list of (id, code) regions. -/
def renderRegions : List (List Char × List Char) → List Char
  | [] => []
  | p :: rest => renderRegion p.1 p.2 ++ renderRegions rest

/-- The rendered buffer with the k-th separator line deleted: region k's
code stays but loses its marker line. -/
def renderDel : List (List Char × List Char) → Nat → List Char
  | [], _ => []
  | p :: rest, 0 => p.2 ++ nl2 ++ renderRegions rest
  | p :: rest, k + 1 => renderRegion p.1 p.2 ++ renderDel rest k

/-- Whether the constant separator stem occurs anywhere in `l`. -/
def hasSep : List Char → Bool
  | [] => false
  | c :: cs => (stripLead? sepStem (c :: cs)).isSome || hasSep cs

/-- Whether an id has the shape the separator regex captures:
the stem followed by one or more digits. -/
def isCanonicalId (id : List Char) : Bool :=
  match stripLead? sepIdStem id with
  | none => false
  | some ds => !ds.isEmpty && ds.all (·.isDigit)

/-- One region of a sandbox session: RegionMapping in the source.
`startLine`/`endLine` are the current 0-based inclusive position in the
original document, `originalContent` the pristine backup text. -/
structure RegionMapping where
  id : List Char
  startLine : Int
  endLine : Int
  originalContent : List Char
  deriving DecidableEq, Repr

/-- A document of the Document Store, as its list of lines. -/
abbrev Doc := List (List Char)

/-- Replace the full-line span `s..e` (inclusive) of `doc` by `newLines`:
the effect of one `edit.replace` over `Range(s, 0, e, lineLength e)`. -/
def replaceSpanI (doc : Doc) (s e : Int) (newLines : Doc) : Doc :=
  doc.take s.toNat ++ newLines ++ doc.drop (e.toNat + 1)

/-- Apply full-line replacements given in ascending order against original
coordinates, as one atomic WorkspaceEdit does: later spans first, so that
every span still addresses its original lines. -/
def applyEditsAsc (doc : Doc) : List (Int × Int × Doc) → Doc
  | [] => doc
  | ed :: rest => replaceSpanI (applyEditsAsc doc rest) ed.1 ed.2.1 ed.2.2

/-- Outcome of one sync cycle of applySandboxSegmentsToOriginal.
`idLookupFailed` models the unchecked `parsedCodeBlocks.get(region.id)!`
finding no entry: the code then feeds `undefined` onward and aborts with a
runtime failure that is not the separator-deleted error message. -/
inductive SyncResult where
  | delimiterMissing
  | idLookupFailed
  | editRejected
  | ok (newDoc : Doc) (newRegions : List RegionMapping)
  deriving DecidableEq, Repr

/-- Pair every session region with the parsed code block for its id,
in session order; fails if some region's id was not parsed. -/
def regionCodes (regions : List RegionMapping) (pairs : List (List Char × List Char)) :
    Option (List (RegionMapping × List Char)) :=
  match regions with
  | [] => some []
  | r :: rest =>
    match lookupLast pairs r.id with
    | none => none
    | some c =>
      match regionCodes rest pairs with
      | none => none
      | some l => some ((r, c) :: l)

/-- The shift calculus of applySandboxSegmentsToOriginal: walk the regions
in stored (ascending) order with one running shift, move each start by the
accumulated shift, recompute the end from the new code's line count, and
add this region's own growth to the shift. -/
def shiftCalcGo (shift : Int) : List (RegionMapping × List Char) → List RegionMapping
  | [] => []
  | rc :: rest =>
    { rc.1 with
      startLine := rc.1.startLine + shift,
      endLine := rc.1.startLine + shift + ((splitLines rc.2).length : Int) - 1 }
      :: shiftCalcGo
          (shift + (((splitLines rc.2).length : Int)
            - (rc.1.endLine - rc.1.startLine + 1))) rest

/-- applySandboxSegmentsToOriginal: split the buffer, strip trailing blank
pairs, guard on the parsed map's size against the region count, build the
composite full-line edit over the current ranges (end clamped to the
document), submit it (`editApplied` is the Document Store's verdict), and
on success run the shift calculus.  On any failure the document and the
ranges are left untouched. -/
def applySandboxSegmentsToOriginal (regions : List RegionMapping) (sandboxText : List Char)
    (doc : Doc) (editApplied : Bool) : SyncResult :=
  let pairs := parsePairs sandboxText
  if mapSize pairs ≠ regions.length then .delimiterMissing
  else
    match regionCodes regions pairs with
    | none => .idLookupFailed
    | some rcs =>
      if editApplied then
        .ok (applyEditsAsc doc (rcs.map fun rc =>
              (rc.1.startLine, min rc.1.endLine ((doc.length : Int) - 1), splitLines rc.2)))
          (shiftCalcGo 0 rcs)
      else .editRejected

/-- The document after a sync cycle: unchanged unless the cycle succeeded. -/
def docAfter (r : SyncResult) (doc : Doc) : Doc :=
  match r with
  | .ok d _ => d
  | _ => doc

/-- The region ranges after a sync cycle: unchanged unless it succeeded. -/
def regionsAfter (r : SyncResult) (regions : List RegionMapping) : List RegionMapping :=
  match r with
  | .ok _ rs => rs
  | _ => regions

/-- The subset of vscode.SymbolKind values this model distinguishes. -/
inductive SymbolKind where
  | Function
  | Method
  | Class
  | Constructor
  | Variable
  | Other
  deriving DecidableEq, Repr

mutual
/-- One vscode.DocumentSymbol: its kind, its full range's lines, its children. -/
inductive DocSymbol where
  | mk (kind : SymbolKind) (startLine : Int) (endLine : Int) (children : SymForest)

/-- A list of document symbols, as a mutual inductive so the tree search
below is structurally recursive. -/
inductive SymForest where
  | nil
  | cons (s : DocSymbol) (rest : SymForest)
end

def DocSymbol.kind : DocSymbol → SymbolKind
  | .mk k _ _ _ => k

def DocSymbol.startLine : DocSymbol → Int
  | .mk _ s _ _ => s

def DocSymbol.endLine : DocSymbol → Int
  | .mk _ _ e _ => e

def DocSymbol.children : DocSymbol → SymForest
  | .mk _ _ _ c => c

def SymForest.toList : SymForest → List DocSymbol
  | .nil => []
  | .cons s rest => s :: rest.toList

/-- The validContainers list of findSymbolAtLine. -/
def validContainer (k : SymbolKind) : Bool :=
  match k with
  | .Function | .Method | .Class | .Constructor => true
  | _ => false

/-- findSymbolAtLine: walk the top-level symbols; at the first one whose
range contains the line, prefer it when it is a valid container, let a
valid-container descendant override it, and fall back to the raw symbol
itself when neither this symbol nor any descendant is a valid container. -/
def findSymbolAtLine : SymForest → Int → Option DocSymbol
  | .nil, _ => none
  | .cons (.mk k sL eL ch) rest, t =>
    if sL ≤ t ∧ t ≤ eL then
      let best0 : Option DocSymbol :=
        if validContainer k then some (.mk k sL eL ch) else none
      let best1 : Option DocSymbol :=
        match findSymbolAtLine ch t with
        | some c =>
          match c with
          | .mk ck _ _ _ => if validContainer ck then some c else best0
        | none => best0
      some (best1.getD (.mk k sL eL ch))
    else findSymbolAtLine rest t

/-- The per-candidate-line range choice of openUnifiedSandbox: the symbol's
range when findSymbolAtLine returns one, otherwise the fixed window of four
lines either side clamped to the document. -/
def regionRangeForLine (symbols : SymForest) (line : Int) (lineCount : Int) : Int × Int :=
  match findSymbolAtLine symbols line with
  | some (.mk _ sL eL _) => (sL, eL)
  | none => (max 0 (line - 4), min (lineCount - 1) (line + 4))

/-- The comparison `ranges.sort((a, b) => a.startLine - b.startLine)` uses:
order by start line. -/
def leStart (a b : Int × Int) : Prop := a.1 ≤ b.1

instance : DecidableRel leStart := fun a b => inferInstanceAs (Decidable (a.1 ≤ b.1))

instance : IsTotal (Int × Int) leStart := ⟨fun a b => le_total a.1 b.1⟩

instance : IsTrans (Int × Int) leStart := ⟨fun _ _ _ h h2 => le_trans h h2⟩

/-- Stable sort of candidate ranges by start line, as the JS `sort` with
that comparator (stable per the ES spec). -/
def sortRanges (l : List (Int × Int)) : List (Int × Int) :=
  l.insertionSort leStart

/-- The merge pass of openUnifiedSandbox over the sorted ranges: extend the
last kept range whenever the next one starts within two lines past its end,
else keep the next range as a new region.  `acc` holds the kept ranges in
reverse. -/
def mergeLoop : List (Int × Int) → List (Int × Int) → List (Int × Int)
  | acc, [] => acc.reverse
  | [], r :: rest => mergeLoop [r] rest
  | last :: accRest, r :: rest =>
    if r.1 ≤ last.2 + 2 then mergeLoop ((last.1, max last.2 r.2) :: accRest) rest
    else mergeLoop (r :: last :: accRest) rest

/-- Sort then merge, as steps 2 and 3 of openUnifiedSandbox. -/
def mergedRanges (l : List (Int × Int)) : List (Int × Int) :=
  mergeLoop [] (sortRanges l)

/-- Adjacent merged ranges are separated by more than the gap threshold. -/
def gapped (a b : Int × Int) : Prop := a.2 + 2 < b.1

/-- Range `m` contains range `a`. -/
def covers (m a : Int × Int) : Prop := m.1 ≤ a.1 ∧ a.2 ≤ m.2

/-- The tail of the separator close literal after its leading space. -/
def closeTail : List Char := "--- ✂️ */".data

/-- Growth or shrinkage one region's new code contributes to the shift. -/
def lineDelta (rc : RegionMapping × List Char) : Int :=
  ((splitLines rc.2).length : Int) - (rc.1.endLine - rc.1.startLine + 1)

/-- Join lines with LF, as reading a line-to-offset span of an LF document. -/
def joinNL : List (List Char) → List Char
  | [] => []
  | [x] => x
  | x :: xs => x ++ '\n' :: joinNL xs

/-- The text of lines `s..e` of `doc`, as the offset-substring read used to
snapshot a region's original content. -/
def extractContent (doc : Doc) (s e : Int) : List Char :=
  joinNL ((doc.drop s.toNat).take (e.toNat + 1 - s.toNat))

/-- The id `region_<n>` assigned in final sorted order. -/
def regionIdOf (n : Nat) : List Char := sepIdStem ++ Nat.toDigits 10 n

/-- One SandboxMapping of the multi-region engine: the session record the
registry maps a sandbox buffer to. -/
structure Session where
  regions : List RegionMapping
  isLive : Bool
  mutex : Bool
  backupUri : Option (List Char)
  deriving DecidableEq, Repr

/-- openUnifiedSandbox: choose a range per candidate line, merge, snapshot
each merged range's text, render the buffer, and register the session with
`isLive := false`, `mutex := false` and no backup reference: the mapping is
created without any durable backup being written. -/
def openUnifiedSandboxSession (doc : Doc) (targetLines : List Int) (symbols : SymForest) :
    Session × List Char :=
  let merged := mergedRanges (targetLines.map fun line =>
    regionRangeForLine symbols line (doc.length : Int))
  let regions := merged.enum.map fun p =>
    ({ id := regionIdOf p.1, startLine := p.2.1, endLine := p.2.2,
       originalContent := extractContent doc p.2.1 p.2.2 } : RegionMapping)
  let text := renderRegions (regions.map fun r => (r.id, r.originalContent))
  ({ regions := regions, isLive := false, mutex := false, backupUri := none }, text)

/-- The state one sandbox session lives in: the original document, the
sandbox buffer's text, the mapping object itself, whether the registry
still holds it, and whether a debounce timer is pending.  The timer's
callback closes over the mapping object, so the mapping outlives its
registry entry. -/
structure World where
  doc : Doc
  buffer : List Char
  session : Session
  registered : Bool
  timerPending : Bool
  deriving DecidableEq, Repr

/-- The accept command (applySandboxCmd of the multi-region engine): when
the buffer has a registered mapping it deletes the durable backup, removes
the registry entry and closes the editor.  It submits no edit, and it does
not cancel a pending debounce timer. -/
def acceptW (w : World) : World :=
  if w.registered then
    { w with registered := false, session := { w.session with backupUri := none } }
  else w

/-- The revert command (discardSandboxCmd): replace every region's current
range with its pristine originalContent, save, delete the durable backup and
remove the registry entry.  It does not cancel a pending debounce timer. -/
def revertW (w : World) : World :=
  if w.registered then
    { w with
      doc := applyEditsAsc w.doc (w.session.regions.map fun r =>
        (r.startLine, r.endLine, splitLines r.originalContent)),
      registered := false,
      session := { w.session with backupUri := none } }
  else w

/-- The change listener's scheduling: an edit on a registered live sandbox
arms the (cancel-and-replace) debounce timer. -/
def scheduleW (w : World) : World :=
  if w.registered ∧ w.session.isLive then { w with timerPending := true } else w

/-- The debounce callback firing: it consults only the captured mapping's
mutex — not the registry and not isLive.  If busy it drops the cycle;
otherwise it runs one sync cycle with the mutex held, and the mutex is
clear again afterwards whether the cycle succeeded or failed. -/
def timerFireW (w : World) (editApplied : Bool) : World :=
  if w.timerPending then
    let w1 := { w with timerPending := false }
    if w1.session.mutex then w1
    else
      match applySandboxSegmentsToOriginal w1.session.regions w1.buffer w1.doc editApplied with
      | .ok d rs =>
        { w1 with doc := d, session := { w1.session with regions := rs, mutex := false } }
      | _ => { w1 with session := { w1.session with mutex := false } }
  else w

/-! Concrete instances used by witnesses and counterexamples. -/

/-- The spec's scenario: two regions `[0,5]` and `[10,18]` of a 20-line file. -/
def exRegions : List RegionMapping :=
  [⟨"region_0".data, 0, 5, "z".data⟩, ⟨"region_1".data, 10, 18, "z".data⟩]

/-- region_0's edited code: three lines. -/
def exCode0 : List Char := "p\nq\nr".data

/-- region_1's unchanged code: nine lines. -/
def exCode1 : List Char := "z\nz\nz\nz\nz\nz\nz\nz\nz".data

/-- The sandbox buffer for the scenario. -/
def exBuffer : List Char :=
  renderRegions [("region_0".data, exCode0), ("region_1".data, exCode1)]

/-- A 20-line original document. -/
def exDoc : Doc := List.replicate 20 "z".data

/-- The document after the scenario's apply. -/
def exDocAfter : Doc := "p".data :: "q".data :: "r".data :: List.replicate 14 "z".data

/-- The ranges after the scenario's apply: `[0,2]` and `[7,15]`. -/
def exRegionsAfter : List RegionMapping :=
  [⟨"region_0".data, 0, 2, "z".data⟩, ⟨"region_1".data, 7, 15, "z".data⟩]

/-- A two-region session over a three-line document. -/
def exRegions2 : List RegionMapping :=
  [⟨"region_0".data, 0, 0, "z".data⟩, ⟨"region_1".data, 2, 2, "z".data⟩]

/-- Its three-line document. -/
def exDoc3 : Doc := ["z".data, "y".data, "z".data]

/-- A buffer for exRegions2 whose id region_0 occurs twice while region_1
keeps its separator: three separators, two distinct ids. -/
def exDupBuffer : List Char :=
  renderRegions
    [("region_0".data, "A".data), ("region_0".data, "B".data), ("region_1".data, "C".data)]

/-- A buffer for exRegions2 holding the unknown id region_5: two separators,
two distinct ids, but none for region_1. -/
def exUnknownBuffer : List Char :=
  renderRegions [("region_0".data, "A".data), ("region_5".data, "B".data)]

/-- A busy live session world: mutex held, timer pending. -/
def exWorldBusy : World :=
  { doc := exDoc3, buffer := exDupBuffer,
    session := { regions := exRegions2, isLive := true, mutex := true, backupUri := none },
    registered := true, timerPending := true }

/-- The same world with the mutex free. -/
def exWorldFree : World :=
  { exWorldBusy with session := { exWorldBusy.session with mutex := false } }

/-- The pristine three-line document of the stale-timer scenario. -/
def staleDocPristine : Doc := ["a".data, "b".data, "c".data]

/-- The document after the sandbox edit was live-synced once. -/
def staleDocSynced : Doc := ["X".data, "Y".data, "c".data]

/-- The stale-timer scenario's session: one region `[0,1]`, live, backup
text the pristine two lines. -/
def staleSession : Session :=
  { regions := [⟨"region_0".data, 0, 1, "a\nb".data⟩],
    isLive := true, mutex := false, backupUri := none }

/-- The edited sandbox buffer of the stale-timer scenario. -/
def staleBuffer : List Char := renderRegions [("region_0".data, "X\nY".data)]

/-- The stale-timer scenario's start: synced document, registered live
session, no timer pending yet. -/
def staleWorld0 : World :=
  { doc := staleDocSynced, buffer := staleBuffer, session := staleSession,
    registered := true, timerPending := false }

/-! Theorems. -/
/-- Containment of ranges composes. -/
theorem covers_trans {a b m : Int × Int} (h1 : covers b a) (h2 : covers m b) : covers m a :=
  ⟨le_trans h2.1 h1.1, le_trans h1.2 h2.2⟩

/-- Equation: the merge loop with nothing left emits the kept ranges. -/
theorem mergeLoop_nil (acc : List (Int × Int)) : mergeLoop acc [] = acc.reverse := by
  cases acc <;> rfl

/-- Equation: the first range is always kept. -/
theorem mergeLoop_nil_cons (r : Int × Int) (rest : List (Int × Int)) :
    mergeLoop [] (r :: rest) = mergeLoop [r] rest := rfl

/-- Equation: merge into the last kept range or push a new one. -/
theorem mergeLoop_cons_cons (last : Int × Int) (accRest : List (Int × Int))
    (r : Int × Int) (rest : List (Int × Int)) :
    mergeLoop (last :: accRest) (r :: rest) =
      if r.1 ≤ last.2 + 2 then mergeLoop ((last.1, max last.2 r.2) :: accRest) rest
      else mergeLoop (r :: last :: accRest) rest := rfl

/-- The merge loop keeps the kept ranges gapped. -/
theorem mergeLoop_chain :
    ∀ rest acc, List.Chain' (flip gapped) acc →
      List.Chain' gapped (mergeLoop acc rest) := by
  intro rest
  induction rest with
  | nil =>
    intro acc hacc
    rw [mergeLoop_nil]
    exact List.chain'_reverse.mpr hacc
  | cons r rest ih =>
    intro acc hacc
    rcases acc with _ | ⟨last, accRest⟩
    · rw [mergeLoop_nil_cons]
      exact ih [r] (List.chain'_singleton r)
    · rw [mergeLoop_cons_cons]
      split
      · apply ih
        rw [List.chain'_cons'] at hacc ⊢
        exact ⟨fun y hy => hacc.1 y hy, hacc.2⟩
      · apply ih
        rw [List.chain'_cons']
        refine ⟨?_, hacc⟩
        intro y hy
        simp at hy
        subst hy
        show gapped last r
        unfold gapped
        omega

/-- The merge loop preserves start-before-end wellformedness. -/
theorem mergeLoop_wf :
    ∀ rest acc, (∀ a ∈ acc, a.1 ≤ a.2) → (∀ a ∈ rest, a.1 ≤ a.2) →
      ∀ m ∈ mergeLoop acc rest, m.1 ≤ m.2 := by
  intro rest
  induction rest with
  | nil =>
    intro acc hacc _ m hm
    rw [mergeLoop_nil, List.mem_reverse] at hm
    exact hacc m hm
  | cons r rest ih =>
    intro acc hacc hrest m hm
    rcases acc with _ | ⟨last, accRest⟩
    · rw [mergeLoop_nil_cons] at hm
      refine ih [r] ?_ (fun a ha => hrest a (by simp [ha])) m hm
      intro a ha
      simp at ha
      subst ha
      exact hrest a (by simp)
    · rw [mergeLoop_cons_cons] at hm
      split at hm
      · refine ih _ ?_ (fun a ha => hrest a (by simp [ha])) m hm
        intro a ha
        rcases List.mem_cons.mp ha with ha | ha
        · subst ha
          have h1 := hacc last (by simp)
          simp
          omega
        · exact hacc a (by simp [ha])
      · refine ih _ ?_ (fun a ha => hrest a (by simp [ha])) m hm
        intro a ha
        rcases List.mem_cons.mp ha with ha | ha
        · subst ha
          exact hrest a (by simp)
        · exact hacc a ha

/-- Every pending and kept range ends up contained in some output range. -/
theorem mergeLoop_covers :
    ∀ rest acc, List.Pairwise leStart rest →
      (∀ a ∈ acc, ∀ q ∈ rest, a.1 ≤ q.1) →
      (∀ a ∈ acc, ∃ m ∈ mergeLoop acc rest, covers m a) ∧
      (∀ q ∈ rest, ∃ m ∈ mergeLoop acc rest, covers m q) := by
  intro rest
  induction rest with
  | nil =>
    intro acc _ _
    constructor
    · intro a ha
      refine ⟨a, ?_, le_refl _, le_refl _⟩
      rw [mergeLoop_nil, List.mem_reverse]
      exact ha
    · intro q hq
      simp at hq
  | cons r rest ih =>
    intro acc hpw hord
    rcases acc with _ | ⟨last, accRest⟩
    · have hih := ih [r] (List.pairwise_cons.mp hpw).2 ?side
      case side =>
        intro a ha q hq
        simp at ha
        subst ha
        exact (List.pairwise_cons.mp hpw).1 q hq
      rw [mergeLoop_nil_cons]
      constructor
      · intro a ha
        simp at ha
      · intro q hq
        rcases List.mem_cons.mp hq with hq | hq
        · subst hq
          exact hih.1 q (by simp)
        · exact hih.2 q hq
    · rw [mergeLoop_cons_cons]
      split
      · rename_i hle
        have hih := ih ((last.1, max last.2 r.2) :: accRest) (List.pairwise_cons.mp hpw).2 ?side2
        case side2 =>
          intro a ha q hq
          rcases List.mem_cons.mp ha with ha | ha
          · subst ha
            exact hord last (by simp) q (by simp [hq])
          · exact hord a (by simp [ha]) q (by simp [hq])
        have hcovlast : ∃ m ∈ mergeLoop ((last.1, max last.2 r.2) :: accRest) rest,
            covers m last := by
          obtain ⟨m, hm, hc⟩ := hih.1 (last.1, max last.2 r.2) (by simp)
          exact ⟨m, hm, @covers_trans last (last.1, max last.2 r.2) m
            ⟨le_refl _, le_max_left _ _⟩ hc⟩
        have hcovr : ∃ m ∈ mergeLoop ((last.1, max last.2 r.2) :: accRest) rest,
            covers m r := by
          obtain ⟨m, hm, hc⟩ := hih.1 (last.1, max last.2 r.2) (by simp)
          refine ⟨m, hm, @covers_trans r (last.1, max last.2 r.2) m
            ⟨?_, le_max_right _ _⟩ hc⟩
          exact hord last (by simp) r (by simp)
        constructor
        · intro a ha
          rcases List.mem_cons.mp ha with ha | ha
          · subst ha; exact hcovlast
          · exact hih.1 a (by simp [ha])
        · intro q hq
          rcases List.mem_cons.mp hq with hq | hq
          · subst hq; exact hcovr
          · exact hih.2 q hq
      · have hih := ih (r :: last :: accRest) (List.pairwise_cons.mp hpw).2 ?side3
        case side3 =>
          intro a ha q hq
          rcases List.mem_cons.mp ha with ha | ha
          · subst ha
            exact (List.pairwise_cons.mp hpw).1 q hq
          · exact hord a ha q (by simp [hq])
        constructor
        · intro a ha
          exact hih.1 a (by simp [ha])
        · intro q hq
          rcases List.mem_cons.mp hq with hq | hq
          · subst hq
            exact hih.1 q (by simp)
          · exact hih.2 q hq

/-- Gapped wellformed ranges have strictly increasing starts. -/
theorem chain_lt_of_gapped :
    ∀ l : List (Int × Int), List.Chain' gapped l → (∀ m ∈ l, m.1 ≤ m.2) →
      List.Chain' (fun a b => a.1 < b.1) l := by
  intro l
  induction l with
  | nil =>
    intro _ _
    exact List.chain'_nil
  | cons x l ih =>
    intro hc hwf
    rcases l with _ | ⟨y, l2⟩
    · exact List.chain'_singleton x
    · rw [List.chain'_cons] at hc ⊢
      refine ⟨?_, ih hc.2 (fun m hm => hwf m (by simp [hm]))⟩
      have hx := hwf x (by simp)
      have hg := hc.1
      unfold gapped at hg
      omega

/-- C4: for any list of candidate line ranges (each with start before
end), the sorted-and-merged result has every adjacent pair separated by
more than the gap threshold of two lines, strictly ascending start lines,
wellformed ranges, and every input range — hence every line in the union
of the inputs — contained in some merged range. -/
theorem merge_invariant (input : List (Int × Int)) (hwf : ∀ r ∈ input, r.1 ≤ r.2) :
    List.Chain' gapped (mergedRanges input) ∧
    List.Chain' (fun a b => a.1 < b.1) (mergedRanges input) ∧
    (∀ m ∈ mergedRanges input, m.1 ≤ m.2) ∧
    (∀ r ∈ input, ∃ m ∈ mergedRanges input, m.1 ≤ r.1 ∧ r.2 ≤ m.2) ∧
    (∀ x : Int, ∀ r ∈ input, r.1 ≤ x → x ≤ r.2 →
      ∃ m ∈ mergedRanges input, m.1 ≤ x ∧ x ≤ m.2) := by
  have hperm := List.perm_insertionSort leStart input
  have hsorted : List.Pairwise leStart (sortRanges input) :=
    List.sorted_insertionSort leStart input
  have hwfs : ∀ a ∈ sortRanges input, a.1 ≤ a.2 := fun a ha =>
    hwf a (hperm.mem_iff.mp ha)
  have hchain : List.Chain' gapped (mergedRanges input) :=
    mergeLoop_chain (sortRanges input) [] List.chain'_nil
  have hwfm : ∀ m ∈ mergedRanges input, m.1 ≤ m.2 :=
    mergeLoop_wf (sortRanges input) [] (by simp) hwfs
  have hcov : ∀ r ∈ input, ∃ m ∈ mergedRanges input, covers m r := fun r hr =>
    (mergeLoop_covers (sortRanges input) [] hsorted (by simp)).2 r (hperm.mem_iff.mpr hr)
  refine ⟨hchain, chain_lt_of_gapped _ hchain hwfm, hwfm, ?_, ?_⟩
  · intro r hr
    obtain ⟨m, hm, hc⟩ := hcov r hr
    exact ⟨m, hm, hc.1, hc.2⟩
  · intro x r hr h1 h2
    obtain ⟨m, hm, hc⟩ := hcov r hr
    exact ⟨m, hm, le_trans hc.1 h1, le_trans h2 hc.2⟩

/-- C4 witness: three overlapping ranges merge to two gapped ones. -/
theorem merge_invariant_witness :
    ((∀ r ∈ [((3 : Int), (9 : Int)), (0, 5), (20, 22)], r.1 ≤ r.2) ∧
      List.Chain' gapped (mergedRanges [(3, 9), (0, 5), (20, 22)])) ∧
    mergedRanges [(3, 9), (0, 5), (20, 22)] = [(0, 9), (20, 22)] :=
  ⟨⟨by decide, (merge_invariant [(3, 9), (0, 5), (20, 22)] (by decide)).1⟩, by decide⟩

/-- C5: the multi-region accept command performs no write-back at all: for
every world it leaves the original document exactly as it was, so the
buffer's final state never reaches the artifact through accept.  This
contradicts the claim that accept applies the current buffer text as a last
write-back before discarding the backup and the registry entry. -/
theorem accept_performs_no_writeback (w : World) :
    (acceptW w).doc = w.doc ∧ (acceptW w).buffer = w.buffer ∧
    (acceptW w).session.regions = w.session.regions := by
  unfold acceptW
  split <;> simp

/-- C9: openUnifiedSandbox registers the multi-region session with no
durable backup reference: for every document, candidate-line list and
symbol tree, the created session's backupUri is `none` (and the session
starts not live), so no crash-recoverable copy exists for this session. -/
theorem multi_region_session_has_no_backup (doc : Doc) (targetLines : List Int)
    (symbols : SymForest) :
    (openUnifiedSandboxSession doc targetLines symbols).1.backupUri = none ∧
    (openUnifiedSandboxSession doc targetLines symbols).1.isLive = false := by
  constructor <;> rfl

/-- C7: when the debounce timer fires, a held mutex makes the cycle a
no-op (the whole world is unchanged except the timer being spent — no
parse, no apply, no range mutation, nothing queued); with the mutex free,
after the cycle the mutex is clear again whatever the sync's outcome, and
the session's isLive flag, its registry entry and the buffer are untouched,
so a failed cycle neither disables live sync nor destroys the session. -/
theorem live_cycle_mutex_discipline (w : World) (editApplied : Bool) :
    (w.session.mutex = true → timerFireW w editApplied = { w with timerPending := false }) ∧
    (w.session.mutex = false →
      (timerFireW w editApplied).session.mutex = false ∧
      (timerFireW w editApplied).session.isLive = w.session.isLive ∧
      (timerFireW w editApplied).registered = w.registered ∧
      (timerFireW w editApplied).buffer = w.buffer ∧
      (timerFireW w editApplied).timerPending = false) := by
  obtain ⟨d, b, ⟨rs, live, mx, bu⟩, reg, tp⟩ := w
  constructor
  · intro h
    subst h
    unfold timerFireW
    cases tp <;> simp
  · intro h
    subst h
    unfold timerFireW
    cases tp <;> simp <;> split <;> simp

/-- C7 witness: the discipline at two concrete worlds, one busy (the fire
is a pure no-op) and one free (mutex clear afterwards, live flag and
registration intact). -/
theorem live_cycle_mutex_discipline_witness :
    timerFireW exWorldBusy true = { exWorldBusy with timerPending := false } ∧
    ((timerFireW exWorldFree true).session.mutex = false ∧
      (timerFireW exWorldFree true).session.isLive = exWorldFree.session.isLive ∧
      (timerFireW exWorldFree true).registered = exWorldFree.registered ∧
      (timerFireW exWorldFree true).buffer = exWorldFree.buffer ∧
      (timerFireW exWorldFree true).timerPending = false) :=
  ⟨(live_cycle_mutex_discipline exWorldBusy true).1 rfl,
    ((live_cycle_mutex_discipline exWorldFree true).2 rfl).1,
    ((live_cycle_mutex_discipline exWorldFree true).2 rfl).2.1,
    ((live_cycle_mutex_discipline exWorldFree true).2 rfl).2.2.1,
    ((live_cycle_mutex_discipline exWorldFree true).2 rfl).2.2.2.1,
    ((live_cycle_mutex_discipline exWorldFree true).2 rfl).2.2.2.2⟩

/-- C8 counterexample: a line enclosed only by a Variable symbol.  The
symbol search returns that Variable symbol, and openUnifiedSandbox then
uses its range `[3,8]` as the region boundary, not the fixed window
`[1,9]` the fallback would give — so a non-container enclosing symbol is
not treated as "no boundary". -/
theorem noncontainer_symbol_used_counterexample :
    (findSymbolAtLine (SymForest.cons (.mk SymbolKind.Variable 3 8 .nil) .nil) 5).map
        (fun s => (s.kind, s.startLine, s.endLine)) = some (SymbolKind.Variable, 3, 8) ∧
    validContainer SymbolKind.Variable = false ∧
    regionRangeForLine (SymForest.cons (.mk SymbolKind.Variable 3 8 .nil) .nil) 5 20 = (3, 8) ∧
    regionRangeForLine SymForest.nil 5 20 = (1, 9) ∧
    ((3 : Int), (8 : Int)) ≠ ((1 : Int), (9 : Int)) :=
  ⟨by decide, rfl, by decide, by decide, by decide⟩

/-- When some top-level symbol encloses the line, the search finds a
symbol: it never falls through to `none`. -/
theorem findSymbolAtLine_isSome_of_encloses :
    ∀ f t, (∃ s ∈ SymForest.toList f, s.startLine ≤ t ∧ t ≤ s.endLine) →
      (findSymbolAtLine f t).isSome = true := by
  intro f t
  induction f, t using findSymbolAtLine.induct with
  | case1 t =>
    intro h
    simp [SymForest.toList] at h
  | case2 k sL eL ch rest t hin ih =>
    intro _
    simp [findSymbolAtLine, if_pos hin]
  | case3 k sL eL ch rest t hout ih =>
    intro h
    obtain ⟨s, hs, henc⟩ := h
    simp only [SymForest.toList, List.mem_cons] at hs
    rcases hs with hs | hs
    · subst hs
      exact absurd (by simpa [DocSymbol.startLine, DocSymbol.endLine] using henc) hout
    · simp only [findSymbolAtLine, if_neg hout]
      exact ih ⟨s, hs, henc⟩

/-- C8 amended: Function/Method/Class/Constructor symbols are the only
ones *preferred* as boundaries, but an enclosing symbol of another kind is
not "no boundary": every symbol the search returns encloses the line; the
search returns nothing exactly when no top-level symbol encloses the line;
whenever the returned symbol is not a valid container it is the raw
top-level enclosing symbol itself; a valid container found among the first
enclosing symbol's descendants overrides that outer symbol; and whenever
some top-level symbol encloses the line, the chosen region range is the
returned symbol's own range, never the fixed window. -/
theorem symbol_boundary_amended :
    (∀ f t s, findSymbolAtLine f t = some s → s.startLine ≤ t ∧ t ≤ s.endLine) ∧
    (∀ f t, findSymbolAtLine f t = none ↔
      ∀ s ∈ SymForest.toList f, ¬ (s.startLine ≤ t ∧ t ≤ s.endLine)) ∧
    (∀ f t s, findSymbolAtLine f t = some s → validContainer s.kind = false →
      s ∈ SymForest.toList f) ∧
    (∀ (k : SymbolKind) (sL eL : Int) (ch rest : SymForest) (t : Int) (c : DocSymbol),
      sL ≤ t → t ≤ eL → findSymbolAtLine ch t = some c →
      validContainer c.kind = true →
      findSymbolAtLine (SymForest.cons (.mk k sL eL ch) rest) t = some c) ∧
    (∀ f (t n : Int), (∃ s ∈ SymForest.toList f, s.startLine ≤ t ∧ t ≤ s.endLine) →
      ∃ s, findSymbolAtLine f t = some s ∧
        regionRangeForLine f t n = (s.startLine, s.endLine)) := by
  refine ⟨?_, ?_, ?_, ?_, ?_⟩
  · intro f t
    induction f, t using findSymbolAtLine.induct with
    | case1 t =>
      intro s h
      simp [findSymbolAtLine] at h
    | case2 k sL eL ch rest t hin ih =>
      intro s h
      simp only [findSymbolAtLine, if_pos hin, Option.some.injEq] at h
      cases hch : findSymbolAtLine ch t with
      | none =>
        rw [hch] at h
        by_cases hv : validContainer k <;>
          simp [hv] at h <;> rw [← h] <;> exact hin
      | some c =>
        rw [hch] at h
        obtain ⟨ck, csL, ceL, cch⟩ := c
        by_cases hcv : validContainer ck
        · simp [hcv] at h
          rw [← h]
          exact ih _ hch
        · by_cases hv : validContainer k <;>
            simp [hcv, hv] at h <;> rw [← h] <;> exact hin
    | case3 k sL eL ch rest t hout ih =>
      intro s h
      simp only [findSymbolAtLine, if_neg hout] at h
      exact ih s h
  · intro f t
    constructor
    · intro hn s hs henc
      have hsome := findSymbolAtLine_isSome_of_encloses f t ⟨s, hs, henc⟩
      rw [hn] at hsome
      simp at hsome
    · induction f, t using findSymbolAtLine.induct with
      | case1 t =>
        intro _
        rfl
      | case2 k sL eL ch rest t hin ih =>
        intro hall
        have hh := hall (DocSymbol.mk k sL eL ch) (by simp [SymForest.toList])
        simp [DocSymbol.startLine, DocSymbol.endLine] at hh
        exact absurd hin (by simpa using hh)
      | case3 k sL eL ch rest t hout ih =>
        intro hall
        simp only [findSymbolAtLine, if_neg hout]
        exact ih fun s hs => hall s (by simp [SymForest.toList, hs])
  · intro f t
    induction f, t using findSymbolAtLine.induct with
    | case1 t =>
      intro s h
      simp [findSymbolAtLine] at h
    | case2 k sL eL ch rest t hin ih =>
      intro s h hinv
      simp only [findSymbolAtLine, if_pos hin, Option.some.injEq] at h
      cases hch : findSymbolAtLine ch t with
      | none =>
        rw [hch] at h
        by_cases hv : validContainer k
        · simp [hv] at h
          rw [← h] at hinv
          simp [DocSymbol.kind] at hinv
          exact absurd hv (by simp [hinv])
        · simp [hv] at h
          rw [← h]
          simp [SymForest.toList]
      | some c =>
        rw [hch] at h
        obtain ⟨ck, csL, ceL, cch⟩ := c
        by_cases hcv : validContainer ck
        · simp [hcv] at h
          rw [← h] at hinv
          simp [DocSymbol.kind] at hinv
          exact absurd hcv (by simp [hinv])
        · by_cases hv : validContainer k
          · simp [hcv, hv] at h
            rw [← h] at hinv
            simp [DocSymbol.kind] at hinv
            exact absurd hv (by simp [hinv])
          · simp [hcv, hv] at h
            rw [← h]
            simp [SymForest.toList]
    | case3 k sL eL ch rest t hout ih =>
      intro s h hinv
      simp only [findSymbolAtLine, if_neg hout] at h
      simp [SymForest.toList]
      right
      exact ih s h hinv
  · intro k sL eL ch rest t c h1 h2 hc hv
    obtain ⟨ck, csL, ceL, cch⟩ := c
    simp only [DocSymbol.kind] at hv
    simp only [findSymbolAtLine, if_pos (⟨h1, h2⟩ : sL ≤ t ∧ t ≤ eL)]
    rw [hc]
    simp [hv]
  · intro f t n h
    have hsome := findSymbolAtLine_isSome_of_encloses f t h
    cases hf : findSymbolAtLine f t with
    | none =>
      rw [hf] at hsome
      simp at hsome
    | some s =>
      obtain ⟨k, sL, eL, ch⟩ := s
      refine ⟨.mk k sL eL ch, rfl, ?_⟩
      unfold regionRangeForLine
      rw [hf]
      rfl

/-- C8 amended witness: the five amended statements at concrete inputs:
the Variable-only tree's returned symbol encloses the line; the same tree
yields nothing at a line outside it; the Variable symbol comes back as the
raw top-level symbol; a Method nested inside an enclosing Function
overrides it as the boundary; and at the enclosed line the chosen region
range is the Variable symbol's own `[3,8]`, not the fixed window. -/
theorem symbol_boundary_amended_witness :
    (DocSymbol.startLine (DocSymbol.mk SymbolKind.Variable 3 8 .nil) ≤ (5 : Int) ∧
      (5 : Int) ≤ DocSymbol.endLine (DocSymbol.mk SymbolKind.Variable 3 8 .nil)) ∧
    findSymbolAtLine (SymForest.cons (.mk SymbolKind.Variable 3 8 .nil) .nil) 20 = none ∧
    DocSymbol.mk SymbolKind.Variable 3 8 .nil ∈
      SymForest.toList (SymForest.cons (.mk SymbolKind.Variable 3 8 .nil) .nil) ∧
    findSymbolAtLine
        (SymForest.cons
          (.mk SymbolKind.Function 0 9 (SymForest.cons (.mk SymbolKind.Method 2 6 .nil) .nil))
          .nil) 4 = some (.mk SymbolKind.Method 2 6 .nil) ∧
    (∃ s, findSymbolAtLine (SymForest.cons (.mk SymbolKind.Variable 3 8 .nil) .nil) 5 =
        some s ∧
      regionRangeForLine (SymForest.cons (.mk SymbolKind.Variable 3 8 .nil) .nil) 5 20 =
        (s.startLine, s.endLine)) :=
  ⟨symbol_boundary_amended.1 (SymForest.cons (.mk SymbolKind.Variable 3 8 .nil) .nil) 5
      (DocSymbol.mk SymbolKind.Variable 3 8 .nil) rfl,
    (symbol_boundary_amended.2.1 (SymForest.cons (.mk SymbolKind.Variable 3 8 .nil) .nil)
      20).mpr (by intro s hs; simp [SymForest.toList] at hs; subst hs; decide),
    symbol_boundary_amended.2.2.1 (SymForest.cons (.mk SymbolKind.Variable 3 8 .nil) .nil) 5
      (DocSymbol.mk SymbolKind.Variable 3 8 .nil) rfl rfl,
    symbol_boundary_amended.2.2.2.1 SymbolKind.Function 0 9
      (SymForest.cons (.mk SymbolKind.Method 2 6 .nil) .nil) .nil 4
      (.mk SymbolKind.Method 2 6 .nil) (by decide) (by decide) rfl rfl,
    symbol_boundary_amended.2.2.2.2 (SymForest.cons (.mk SymbolKind.Variable 3 8 .nil) .nil)
      5 20
      ⟨DocSymbol.mk SymbolKind.Variable 3 8 .nil, by simp [SymForest.toList], by decide⟩⟩

/-- C10: accept and revert leave a pending debounce timer armed (they only
remove the registry entry and the backup), the timer callback's behaviour
does not depend on registry membership (it holds the mapping by reference),
and in the concrete scenario a timer scheduled before revert fires after it
and writes the stale buffer contents back over the just-restored pristine
text. -/
theorem stale_timer_after_termination :
    (∀ w, (acceptW w).timerPending = w.timerPending) ∧
    (∀ w, (revertW w).timerPending = w.timerPending) ∧
    (∀ w e, timerFireW { w with registered := false } e =
      { timerFireW w e with registered := false }) ∧
    ((revertW (scheduleW staleWorld0)).doc = staleDocPristine ∧
      (revertW (scheduleW staleWorld0)).registered = false ∧
      (revertW (scheduleW staleWorld0)).timerPending = true ∧
      (timerFireW (revertW (scheduleW staleWorld0)) true).doc = staleDocSynced ∧
      staleDocSynced ≠ staleDocPristine) := by
  refine ⟨?_, ?_, ?_, by decide, by decide, by decide, by decide, by decide⟩
  · intro w
    unfold acceptW
    split <;> simp
  · intro w
    unfold revertW
    split <;> simp
  · intro w e
    obtain ⟨d, b, ⟨rs, live, mx, bu⟩, reg, tp⟩ := w
    unfold timerFireW
    cases tp <;> cases mx <;> simp <;> split <;> simp



theorem stripLead?_append (p r : List Char) : stripLead? p (p ++ r) = some r := by
  induction p with
  | nil => rfl
  | cons c cs ih => simp [stripLead?, ih]

theorem stripLead?_eq_some {p l r : List Char} :
    stripLead? p l = some r ↔ l = p ++ r := by
  constructor
  · intro h
    induction p generalizing l with
    | nil =>
      simp [stripLead?] at h
      simp [h]
    | cons c cs ih =>
      match l with
      | [] => simp [stripLead?] at h
      | x :: xs =>
        simp only [stripLead?] at h
        by_cases hx : x = c
        · rw [if_pos hx] at h
          subst hx
          simp [ih h]
        · rw [if_neg hx] at h
          exact absurd h (by simp)
  · intro h
    subst h
    exact stripLead?_append p r

theorem takeDigits_all_digits {ds : List Char} (h : ∀ x ∈ ds, x.isDigit) {c : Char}
    (hc : ¬ c.isDigit) (r : List Char) :
    takeDigits (ds ++ c :: r) = (ds, c :: r) := by
  induction ds with
  | nil => simp [takeDigits, hc]
  | cons d dt ih =>
    have hd : d.isDigit := h d (by simp)
    have ht : ∀ x ∈ dt, x.isDigit := fun x hx => h x (by simp [hx])
    simp only [List.cons_append, takeDigits, hd, if_pos, List.append_eq]
    rw [ih ht]

theorem sepStem_no_lf : '\n' ∉ sepStem := by decide

/-- If the stem matches across a LF boundary, it already matched before it:
the stem has no LF, so a match of `p` against `l ++ '\n' :: t` never
consumes the LF. -/
theorem stripLead?_lf {p : List Char} (hp : '\n' ∉ p) :
    ∀ l t r, stripLead? p (l ++ '\n' :: t) = some r → (stripLead? p l).isSome := by
  induction p with
  | nil =>
    intro l t r _
    simp [stripLead?]
  | cons q ps ih =>
    intro l t r h
    have hq : q ≠ '\n' := fun hqe => hp (by simp [hqe])
    match l with
    | [] =>
      simp only [List.nil_append, stripLead?] at h
      rw [if_neg (fun hh => hq hh.symm)] at h
      exact absurd h (by simp)
    | x :: xs =>
      simp only [List.cons_append, stripLead?] at h ⊢
      by_cases hx : x = q
      · rw [if_pos hx] at h ⊢
        exact ih (fun hin => hp (by simp [hin])) xs t r h
      · rw [if_neg hx] at h
        exact absurd h (by simp)

theorem hasSep_cons (c : Char) (cs : List Char) :
    hasSep (c :: cs) = ((stripLead? sepStem (c :: cs)).isSome || hasSep cs) := rfl

/-- Appending the blank-line pair cannot create a stem occurrence. -/
theorem hasSep_append_nl2 {code : List Char} (h : hasSep code = false) :
    hasSep (code ++ nl2) = false := by
  induction code with
  | nil => decide
  | cons c cs ih =>
    rw [hasSep_cons] at h
    simp only [Bool.or_eq_false_iff] at h
    rw [List.cons_append, hasSep_cons, Bool.or_eq_false_iff]
    refine ⟨?_, ih h.2⟩
    cases hs : stripLead? sepStem (c :: cs ++ nl2) with
    | none => simpa using hs
    | some r =>
      have : (stripLead? sepStem (c :: cs)).isSome := by
        have := stripLead?_lf sepStem_no_lf (c :: cs) ['\n'] r (by simpa [nl2] using hs)
        exact this
      rw [h.1] at this
      simp at this



/-- A separator match never begins inside a stem-free block that ends just
before a LF: the newline blocks the constant stem. -/
theorem matchSep_block_none {l : List Char} (h : hasSep (l ++ ['\n']) = false)
    (tail : List Char) : matchSep (l ++ '\n' :: tail) = none := by
  unfold matchSep
  cases hs : stripLead? sepStem (l ++ '\n' :: tail) with
  | none => rfl
  | some r =>
    exfalso
    have h0 : (stripLead? sepStem l).isSome := stripLead?_lf sepStem_no_lf l tail r hs
    cases hl : stripLead? sepStem l with
    | none =>
      rw [hl] at h0
      simp at h0
    | some r2 =>
      have hsome : stripLead? sepStem (l ++ ['\n']) = some (r2 ++ ['\n']) := by
        rw [stripLead?_eq_some] at hl ⊢
        simp [hl]
      have htrue : hasSep (l ++ ['\n']) = true := by
        cases l with
        | nil =>
          rw [stripLead?_eq_some] at hl
          simp only [List.nil_eq, List.append_eq_nil] at hl
          exact absurd hl.1.symm (by decide)
        | cons c cs =>
          rw [List.cons_append] at hsome ⊢
          rw [hasSep_cons, hsome]
          simp
      rw [htrue] at h
      simp at h

/-- The digits of a canonical id. -/
theorem isCanonicalId_spec {id : List Char} (h : isCanonicalId id = true) :
    ∃ ds, id = sepIdStem ++ ds ∧ ds ≠ [] ∧ ∀ x ∈ ds, x.isDigit := by
  unfold isCanonicalId at h
  cases hs : stripLead? sepIdStem id with
  | none =>
    rw [hs] at h
    simp at h
  | some ds =>
    rw [hs] at h
    simp only [Bool.and_eq_true, Bool.not_eq_true'] at h
    refine ⟨ds, stripLead?_eq_some.mp hs, ?_, ?_⟩
    · intro hds
      subst hds
      simp at h
    · intro x hx
      exact List.all_eq_true.mp h.2 x hx


theorem sepCloseLit_eq : sepCloseLit = ' ' :: closeTail := by decide

/-- Matching a rendered separator yields the id and the text after the
separator line. -/
theorem matchSep_render {id : List Char} (h : isCanonicalId id = true)
    (code tail : List Char) :
    matchSep (renderRegion id code ++ tail) = some (id, code ++ nl2 ++ tail) := by
  obtain ⟨ds, hid, hne, hdig⟩ := isCanonicalId_spec h
  subst hid
  have hshape : renderRegion (sepIdStem ++ ds) code ++ tail =
      sepStem ++ (ds ++ (' ' :: (closeTail ++ '\n' :: (code ++ nl2 ++ tail)))) := by
    unfold renderRegion sepStem
    rw [sepCloseLit_eq]
    simp [List.append_assoc]
  rw [hshape]
  unfold matchSep
  rw [stripLead?_append, Option.some_bind]
  rw [takeDigits_all_digits hdig (by decide) _]
  rw [if_neg (by simpa using hne)]
  have hclose : (' ' :: (closeTail ++ '\n' :: (code ++ nl2 ++ tail))) =
      sepCloseLit ++ '\n' :: (code ++ nl2 ++ tail) := by
    rw [sepCloseLit_eq]
    rfl
  show (stripLead? sepCloseLit (' ' :: (closeTail ++ '\n' :: (code ++ nl2 ++ tail)))).bind _ =
    _
  rw [hclose, stripLead?_append, Option.some_bind]
  rw [if_neg ?hcr]
  case hcr =>
    intro hcon
    simp at hcon
  rw [if_pos (by simp)]
  simp



theorem stripLead?_length {p l r : List Char} (h : stripLead? p l = some r) :
    r.length + p.length = l.length := by
  rw [stripLead?_eq_some] at h
  subst h
  simp [Nat.add_comm]

theorem takeDigits_len (l : List Char) : (takeDigits l).2.length ≤ l.length := by
  induction l with
  | nil => simp [takeDigits]
  | cons c cs ih =>
    by_cases hc : c.isDigit
    · simp only [takeDigits, hc, if_pos]
      exact le_trans ih (by simp)
    · simp [takeDigits, hc]

theorem matchSep_some_length {l id rest : List Char} (h : matchSep l = some (id, rest)) :
    rest.length < l.length := by
  unfold matchSep at h
  cases h1 : stripLead? sepStem l with
  | none =>
    rw [h1] at h
    simp at h
  | some r1 =>
    rw [h1, Option.some_bind] at h
    have hl1 := stripLead?_length h1
    by_cases he : (takeDigits r1).1.isEmpty
    · rw [if_pos he] at h
      simp at h
    · rw [if_neg he] at h
      cases h3 : stripLead? sepCloseLit (takeDigits r1).2 with
      | none =>
        rw [h3] at h
        simp at h
      | some r3 =>
        rw [h3, Option.some_bind] at h
        have hl3 := stripLead?_length h3
        have htd := takeDigits_len r1
        have hstem : sepStem.length = 30 := by decide
        have hclose : sepCloseLit.length = 10 := by decide
        by_cases h2 : r3.take 2 = ['\r', '\n']
        · rw [if_pos h2] at h
          simp only [Option.some.injEq, Prod.mk.injEq] at h
          rw [← h.2]
          have := List.length_drop 2 r3
          omega
        · rw [if_neg h2] at h
          by_cases h4 : r3.take 1 = ['\n']
          · rw [if_pos h4] at h
            simp only [Option.some.injEq, Prod.mk.injEq] at h
            rw [← h.2]
            have := List.length_drop 1 r3
            omega
          · rw [if_neg h4] at h
            simp at h

theorem splitLoop_fuel :
    ∀ f1 f2 l acc, l.length ≤ f1 → l.length ≤ f2 →
      splitLoop f1 l acc = splitLoop f2 l acc := by
  intro f1
  induction f1 with
  | zero =>
    intro f2 l acc h1 _
    have : l = [] := List.length_eq_zero.mp (Nat.le_zero.mp h1)
    subst this
    cases f2 <;> rfl
  | succ f1 ih =>
    intro f2 l acc h1 h2
    cases l with
    | nil => cases f2 <;> rfl
    | cons c cs =>
      cases f2 with
      | zero => simp at h2
      | succ f2 =>
        show splitLoop (f1 + 1) (c :: cs) acc = splitLoop (f2 + 1) (c :: cs) acc
        unfold splitLoop
        cases hm : matchSep (c :: cs) with
        | none =>
          simp only
          exact ih f2 cs (c :: acc) (by simpa using h1) (by simpa using h2)
        | some p =>
          obtain ⟨id, rest⟩ := p
          have hlen : rest.length < cs.length + 1 := by
            simpa using matchSep_some_length hm
          have hf1 : cs.length + 1 ≤ f1 + 1 := by simpa using h1
          have hf2 : cs.length + 1 ≤ f2 + 1 := by simpa using h2
          simp only
          rw [ih f2 rest [] (by omega) (by omega)]

theorem splitLoop_acc :
    ∀ f l acc, splitLoop f l acc =
      (acc.reverse ++ (splitLoop f l []).1, (splitLoop f l []).2) := by
  intro f
  induction f with
  | zero =>
    intro l acc
    cases l <;> simp [splitLoop]
  | succ f ih =>
    intro l acc
    cases l with
    | nil => simp [splitLoop]
    | cons c cs =>
      unfold splitLoop
      cases hm : matchSep (c :: cs) with
      | none =>
        simp only
        rw [ih cs (c :: acc), ih cs [c]]
        simp
      | some p => simp



theorem matchSep_nil : matchSep [] = none := by rfl

theorem splitLoop_pos {l id rest : List Char} (h : matchSep l = some (id, rest))
    (f : Nat) (acc : List Char) :
    splitLoop (f + 1) l acc =
      (acc.reverse, (id, (splitLoop f rest []).1) :: (splitLoop f rest []).2) := by
  cases l with
  | nil => rw [matchSep_nil] at h; exact absurd h (by simp)
  | cons c cs =>
    simp only [splitLoop, h]

theorem splitLoop_none {c : Char} {cs : List Char} (h : matchSep (c :: cs) = none)
    (f : Nat) (acc : List Char) :
    splitLoop (f + 1) (c :: cs) acc = splitLoop f cs (c :: acc) := by
  simp only [splitLoop, h]

/-- Scanning a stem-free block that ends with a LF just accumulates it. -/
theorem splitLoop_clean :
    ∀ b, hasSep b = false → b.getLast? = some '\n' →
      ∀ tail acc f, b.length + tail.length ≤ f →
        splitLoop f (b ++ tail) acc = splitLoop tail.length tail (b.reverse ++ acc) := by
  intro b
  induction b with
  | nil =>
    intro _ hlast
    simp at hlast
  | cons c bs ih =>
    intro hsep hlast tail acc f hf
    have hne : c :: bs ≠ [] := by simp
    have hlastv : (c :: bs).getLast hne = '\n' := by
      have h2 := List.getLast?_eq_getLast (c :: bs) hne
      rw [h2] at hlast
      simpa using hlast
    have hdecomp : c :: bs = (c :: bs).dropLast ++ ['\n'] := by
      conv_lhs => rw [← List.dropLast_append_getLast hne]
      rw [hlastv]
    have hnomatch : matchSep (c :: (bs ++ tail)) = none := by
      have hsep2 : hasSep ((c :: bs).dropLast ++ ['\n']) = false := by
        rw [← hdecomp]
        exact hsep
      have h3 := matchSep_block_none hsep2 tail
      rw [show (c :: bs).dropLast ++ '\n' :: tail = ((c :: bs).dropLast ++ ['\n']) ++ tail by
        simp] at h3
      rw [← hdecomp] at h3
      exact h3
    cases f with
    | zero => simp at hf
    | succ f =>
      rw [show (c :: bs) ++ tail = c :: (bs ++ tail) from rfl]
      rw [splitLoop_none hnomatch]
      cases bs with
      | nil =>
        have hc : c = '\n' := by simpa using hlast
        subst hc
        have htl : tail.length ≤ f := by
          simp at hf
          omega
        rw [List.nil_append]
        rw [splitLoop_fuel f tail.length tail ('\n' :: acc) htl (le_refl _)]
        simp
      | cons b bs2 =>
        have hsep3 : hasSep (b :: bs2) = false := by
          rw [hasSep_cons] at hsep
          simp only [Bool.or_eq_false_iff] at hsep
          exact hsep.2
        have hlast3 : (b :: bs2).getLast? = some '\n' := by
          rw [List.getLast?_cons_cons] at hlast
          exact hlast
        have h4 := ih hsep3 hlast3 tail (c :: acc) f (by simp at hf ⊢; omega)
        rw [h4]
        simp

/-- Splitting a rendered buffer of canonical, stem-free regions: empty
preamble and one (id, code plus blank pair) chunk per region. -/
theorem splitLoop_render :
    ∀ pairs : List (List Char × List Char),
      (∀ p ∈ pairs, isCanonicalId p.1 = true ∧ hasSep (p.2 ++ nl2) = false) →
      ∀ f, (renderRegions pairs).length ≤ f →
        splitLoop f (renderRegions pairs) [] =
          ([], pairs.map fun p => (p.1, p.2 ++ nl2)) := by
  intro pairs
  induction pairs with
  | nil =>
    intro _ f _
    cases f <;> rfl
  | cons p rest ih =>
    intro hp f hf
    obtain ⟨id, code⟩ := p
    have hid : isCanonicalId id = true := (hp (id, code) (by simp)).1
    have hcode : hasSep (code ++ nl2) = false := (hp (id, code) (by simp)).2
    have hrr : renderRegions ((id, code) :: rest) =
        renderRegion id code ++ renderRegions rest := rfl
    have hlen1 : sepHeadLit.length = 23 := by decide
    have hlen2 : sepCloseLit.length = 10 := by decide
    have hrenlen : (renderRegion id code).length =
        id.length + code.length + 36 := by
      unfold renderRegion nl2
      simp [hlen1, hlen2]
      omega
    cases f with
    | zero =>
      rw [hrr] at hf
      simp [hrenlen] at hf
    | succ f =>
      rw [hrr]
      rw [splitLoop_pos (matchSep_render hid code (renderRegions rest)) f []]
      have hblock : (code ++ nl2).getLast? = some '\n' := by
        rw [show code ++ nl2 = (code ++ ['\n']) ++ ['\n'] by simp [nl2]]
        exact List.getLast?_concat _
      have hfuel : (code ++ nl2).length + (renderRegions rest).length ≤ f := by
        rw [hrr] at hf
        simp only [List.length_append, hrenlen] at hf ⊢
        simp [nl2]
        omega
      rw [show code ++ nl2 ++ renderRegions rest = (code ++ nl2) ++ renderRegions rest by
        simp]
      rw [splitLoop_clean (code ++ nl2) hcode hblock (renderRegions rest) [] f hfuel]
      rw [splitLoop_acc]
      rw [ih (fun q hq => hp q (by simp [hq])) (renderRegions rest).length (le_refl _)]
      simp



/-- Stripping the rendered blank-line pair gives the code back, provided
the code does not end in a carriage return. -/
theorem stripTrailing_append_nl2 {code : List Char} (h : code.getLast? ≠ some '\r') :
    stripTrailing (code ++ nl2) = code := by
  unfold stripTrailing nl2
  have hrev : (code ++ ['\n', '\n']).reverse = '\n' :: '\n' :: code.reverse := by
    simp
  rw [hrev]
  cases hcr : code.reverse with
  | nil =>
    have : code = [] := by simpa using congrArg List.reverse hcr
    subst this
    simp
  | cons c cr =>
    have hc : c ≠ '\r' := by
      intro hc
      subst hc
      apply h
      rw [← List.head?_reverse]
      rw [hcr]
      rfl
    simp only [List.take_succ_cons, List.take_zero]
    rw [if_neg (by simp)]
    rw [if_neg (by simp [hc])]
    rw [if_neg (by simp)]
    rw [if_pos trivial]
    have : (('\n' :: '\n' :: c :: cr).drop 2) = c :: cr := rfl
    rw [this, ← hcr]
    simp

/-- C3 amended: rendering then parsing is the identity on the regions,
provided every region id is canonical, no region's code contains the
separator stem, and no region's code ends with a carriage return.  Exactly
the one appended blank-line pair is stripped per region. -/
theorem render_parse_roundtrip (pairs : List (List Char × List Char))
    (h : ∀ p ∈ pairs, isCanonicalId p.1 = true ∧ hasSep p.2 = false ∧
      p.2.getLast? ≠ some '\r') :
    parsePairs (renderRegions pairs) = pairs := by
  unfold parsePairs splitSep
  rw [splitLoop_render pairs
    (fun p hp => ⟨(h p hp).1, hasSep_append_nl2 (h p hp).2.1⟩) _ (le_refl _)]
  simp only [List.map_map]
  rw [show ((fun p : List Char × List Char => (p.1, stripTrailing p.2)) ∘
      (fun p : List Char × List Char => (p.1, p.2 ++ nl2))) =
      fun p : List Char × List Char => (p.1, stripTrailing (p.2 ++ nl2)) from rfl]
  conv_lhs =>
    rw [List.map_congr_left (fun p hp => by
      rw [stripTrailing_append_nl2 (h p hp).2.2])]
  simp

/-- C3 amended witness: the round trip at a concrete two-region set with
canonical ids, stem-free codes and no trailing carriage returns. -/
theorem render_parse_roundtrip_witness :
    (∀ p ∈ [("region_0".data, "a\nb".data), ("region_1".data, "c".data)],
      isCanonicalId p.1 = true ∧ hasSep p.2 = false ∧ p.2.getLast? ≠ some '\r') ∧
    parsePairs (renderRegions
        [("region_0".data, "a\nb".data), ("region_1".data, "c".data)]) =
      [("region_0".data, "a\nb".data), ("region_1".data, "c".data)] :=
  ⟨by decide, render_parse_roundtrip _ (by decide)⟩

/-- C3 counterexample: the round trip is not the identity for every
RegionSet: a region whose code is "x\r" comes back as "x" — the CR is
eaten together with the blank-line pair by the trailing-strip regex. -/
theorem roundtrip_cr_counterexample :
    parsePairs (renderRegions [("region_0".data, "x\r".data)]) =
      [("region_0".data, "x".data)] ∧
    "x".data ≠ "x\r".data := by
  constructor
  · decide
  · decide



theorem parsePairs_fst (text : List Char) :
    (parsePairs text).map (fun p => p.1) = parsedIds text := by
  simp [parsePairs, parsedIds]

/-- Scanning past one stem-free code block and its blank pair leaves the
parsed pair list that of the remaining text. -/
theorem splitLoop_snd_block {code : List Char} (h : hasSep code = false)
    (tail acc : List Char) (f : Nat) (hf : code.length + 2 + tail.length ≤ f) :
    (splitLoop f (code ++ nl2 ++ tail) acc).2 = (splitLoop tail.length tail []).2 := by
  have hblock : (code ++ nl2).getLast? = some '\n' := by
    rw [show code ++ nl2 = (code ++ ['\n']) ++ ['\n'] by simp [nl2]]
    exact List.getLast?_concat _
  rw [show code ++ nl2 ++ tail = (code ++ nl2) ++ tail by simp]
  rw [splitLoop_clean (code ++ nl2) (hasSep_append_nl2 h) hblock tail acc f
    (by simp only [List.length_append, nl2, List.length_cons, List.length_nil]; omega)]
  rw [splitLoop_acc]

/-- Parsing a buffer whose k-th separator line was deleted yields exactly
the other regions' ids. -/
theorem parsedIds_renderDel :
    ∀ (pairs : List (List Char × List Char)) (k : Nat),
      (∀ p ∈ pairs, isCanonicalId p.1 = true ∧ hasSep p.2 = false) →
      k < pairs.length →
      parsedIds (renderDel pairs k) = (pairs.map fun p => p.1).eraseIdx k := by
  intro pairs
  induction pairs with
  | nil =>
    intro k _ hk
    simp at hk
  | cons p rest ih =>
    intro k hp hk
    obtain ⟨id, code⟩ := p
    cases k with
    | zero =>
      show parsedIds (code ++ nl2 ++ renderRegions rest) = _
      unfold parsedIds splitSep
      rw [splitLoop_snd_block (hp (id, code) (by simp)).2 (renderRegions rest) []
        (code ++ nl2 ++ renderRegions rest).length (by simp [nl2]; omega)]
      have hrend := splitLoop_render rest (fun q hq =>
        ⟨(hp q (by simp [hq])).1, hasSep_append_nl2 (hp q (by simp [hq])).2⟩)
        (renderRegions rest).length (le_refl _)
      rw [hrend]
      simp
    | succ k =>
      show parsedIds (renderRegion id code ++ renderDel rest k) = _
      have hk2 : k < rest.length := by simpa using hk
      have hid : isCanonicalId id = true := (hp (id, code) (by simp)).1
      have hcode : hasSep code = false := (hp (id, code) (by simp)).2
      unfold parsedIds splitSep
      have hlen1 : sepHeadLit.length = 23 := by decide
      have hlen2 : sepCloseLit.length = 10 := by decide
      have hrenlen : (renderRegion id code).length = id.length + code.length + 36 := by
        unfold renderRegion nl2
        simp [hlen1, hlen2]
        omega
      cases hft : (renderRegion id code ++ renderDel rest k).length with
      | zero =>
        simp [hrenlen] at hft
      | succ f =>
        rw [splitLoop_pos (matchSep_render hid code (renderDel rest k)) f []]
        have hfuel : code.length + 2 + (renderDel rest k).length ≤ f := by
          rw [List.length_append, hrenlen] at hft
          omega
        rw [show (splitLoop f (code ++ nl2 ++ renderDel rest k) []).2 =
            (splitLoop (renderDel rest k).length (renderDel rest k) []).2 from
          splitLoop_snd_block hcode (renderDel rest k) [] f hfuel]
        have hihe := ih k (fun q hq => hp q (by simp [hq])) hk2
        unfold parsedIds splitSep at hihe
        simp [hihe]

/-- Deleting one of at least two distinct separators leaves a parsed map
one short of the region count. -/
theorem mapSize_renderDel {pairs : List (List Char × List Char)} {k : Nat}
    (hp : ∀ p ∈ pairs, isCanonicalId p.1 = true ∧ hasSep p.2 = false)
    (hnd : (pairs.map fun p => p.1).Nodup) (hk : k < pairs.length) :
    mapSize (parsePairs (renderDel pairs k)) = pairs.length - 1 := by
  unfold mapSize
  rw [parsePairs_fst, parsedIds_renderDel pairs k hp hk]
  have hnd2 : ((pairs.map fun p => p.1).eraseIdx k).Nodup :=
    hnd.sublist (List.eraseIdx_sublist _ k)
  rw [List.dedup_eq_self.mpr hnd2]
  rw [List.length_eraseIdx]
  simp [hk]



/-- C2: whenever the number of (distinct) region ids parsed from the buffer
differs from the session's region count, the sync returns the
delimiter-missing error, the original document is untouched and every
region range is unchanged; in particular, deleting any one separator line
from the rendered buffer of a session with at least two regions (with
their distinct canonical ids and stem-free codes) always trips this guard. -/
theorem delimiter_guard_blocks_sync :
    (∀ (regions : List RegionMapping) (text : List Char) (doc : Doc) (ap : Bool),
      mapSize (parsePairs text) ≠ regions.length →
      applySandboxSegmentsToOriginal regions text doc ap = SyncResult.delimiterMissing ∧
      docAfter (applySandboxSegmentsToOriginal regions text doc ap) doc = doc ∧
      regionsAfter (applySandboxSegmentsToOriginal regions text doc ap) regions = regions) ∧
    (∀ (pairs : List (List Char × List Char)) (regions : List RegionMapping)
        (k : Nat) (doc : Doc) (ap : Bool),
      (∀ p ∈ pairs, isCanonicalId p.1 = true ∧ hasSep p.2 = false) →
      (pairs.map fun p => p.1).Nodup →
      regions.length = pairs.length → 2 ≤ pairs.length → k < pairs.length →
      applySandboxSegmentsToOriginal regions (renderDel pairs k) doc ap =
        SyncResult.delimiterMissing ∧
      docAfter (applySandboxSegmentsToOriginal regions (renderDel pairs k) doc ap) doc = doc ∧
      regionsAfter (applySandboxSegmentsToOriginal regions (renderDel pairs k) doc ap)
        regions = regions) := by
  have hfirst : ∀ (regions : List RegionMapping) (text : List Char) (doc : Doc) (ap : Bool),
      mapSize (parsePairs text) ≠ regions.length →
      applySandboxSegmentsToOriginal regions text doc ap = SyncResult.delimiterMissing ∧
      docAfter (applySandboxSegmentsToOriginal regions text doc ap) doc = doc ∧
      regionsAfter (applySandboxSegmentsToOriginal regions text doc ap) regions = regions := by
    intro regions text doc ap h
    have he : applySandboxSegmentsToOriginal regions text doc ap =
        SyncResult.delimiterMissing := by
      unfold applySandboxSegmentsToOriginal
      rw [if_pos h]
    exact ⟨he, by rw [he]; rfl, by rw [he]; rfl⟩
  refine ⟨hfirst, ?_⟩
  intro pairs regions k doc ap hp hnd hlen h2 hk
  apply hfirst
  rw [mapSize_renderDel hp hnd hk, hlen]
  omega

/-- C2 witness: a concrete two-region session; deleting the second
separator line makes the sync fail with the delimiter error and leave the
three-line document and both ranges unchanged. -/
theorem delimiter_guard_blocks_sync_witness :
    applySandboxSegmentsToOriginal exRegions2
        (renderDel [("region_0".data, "a".data), ("region_1".data, "c".data)] 1)
        exDoc3 true = SyncResult.delimiterMissing ∧
    docAfter (applySandboxSegmentsToOriginal exRegions2
        (renderDel [("region_0".data, "a".data), ("region_1".data, "c".data)] 1)
        exDoc3 true) exDoc3 = exDoc3 ∧
    regionsAfter (applySandboxSegmentsToOriginal exRegions2
        (renderDel [("region_0".data, "a".data), ("region_1".data, "c".data)] 1)
        exDoc3 true) exRegions2 = exRegions2 :=
  delimiter_guard_blocks_sync.2
    [("region_0".data, "a".data), ("region_1".data, "c".data)] exRegions2 1 exDoc3 true
    (by decide) (by decide) (by decide) (by decide) (by decide)


theorem shiftCalcGo_getElem :
    ∀ (rcs : List (RegionMapping × List Char)) (shift : Int) (i : Nat)
      (h : i < rcs.length),
      (shiftCalcGo shift rcs)[i]? =
        some { (rcs.get ⟨i, h⟩).1 with
          startLine := (rcs.get ⟨i, h⟩).1.startLine + shift
            + ((rcs.take i).map lineDelta).sum,
          endLine := (rcs.get ⟨i, h⟩).1.startLine + shift
            + ((rcs.take i).map lineDelta).sum
            + ((splitLines (rcs.get ⟨i, h⟩).2).length : Int) - 1 } := by
  intro rcs
  induction rcs with
  | nil =>
    intro shift i h
    simp at h
  | cons rc rest ih =>
    intro shift i h
    cases i with
    | zero =>
      simp [shiftCalcGo]
    | succ i =>
      have hi : i < rest.length := by simpa using h
      simp only [shiftCalcGo, List.getElem?_cons_succ]
      rw [ih _ i hi]
      simp only [List.get_cons_succ, List.take_succ_cons, List.map_cons, List.sum_cons,
        Option.some.injEq, RegionMapping.mk.injEq, lineDelta]
      refine ⟨trivial, by omega, by omega, trivial⟩

/-- C1: every successful apply runs the shift calculus over the regions in
stored ascending order with one running shift starting at 0: region i's
new start is its old start plus the sum of the preceding regions' line
deltas, and its new end is its new start plus its new line count minus
one. -/
theorem shift_calculus_after_apply (regions : List RegionMapping) (text : List Char)
    (doc : Doc) (newDoc : Doc) (newRegions : List RegionMapping)
    (h : applySandboxSegmentsToOriginal regions text doc true =
      SyncResult.ok newDoc newRegions) :
    ∃ rcs, regionCodes regions (parsePairs text) = some rcs ∧
      newRegions = shiftCalcGo 0 rcs ∧
      ∀ i (hi : i < rcs.length),
        newRegions[i]? = some { (rcs.get ⟨i, hi⟩).1 with
          startLine := (rcs.get ⟨i, hi⟩).1.startLine + ((rcs.take i).map lineDelta).sum,
          endLine := (rcs.get ⟨i, hi⟩).1.startLine + ((rcs.take i).map lineDelta).sum
            + ((splitLines (rcs.get ⟨i, hi⟩).2).length : Int) - 1 } := by
  unfold applySandboxSegmentsToOriginal at h
  by_cases hg : mapSize (parsePairs text) ≠ regions.length
  · rw [if_pos hg] at h
    exact absurd h (by simp)
  · rw [if_neg hg] at h
    cases hrc : regionCodes regions (parsePairs text) with
    | none =>
      rw [hrc] at h
      exact absurd h (by simp)
    | some rcs =>
      rw [hrc] at h
      simp only [if_true, SyncResult.ok.injEq] at h
      refine ⟨rcs, rfl, h.2.symm, ?_⟩
      intro i hi
      rw [← h.2]
      rw [shiftCalcGo_getElem rcs 0 i hi]
      simp only [Option.some.injEq, RegionMapping.mk.injEq]
      refine ⟨trivial, by omega, by omega, trivial⟩

/-- C1 witness: the spec's scenario, end to end: regions `[0,5]` and
`[10,18]`, region_0 edited from six lines to three, region_1's nine lines
unchanged; one apply against the 20-line document yields `[0,2]` and
`[7,15]`. -/
theorem shift_calculus_after_apply_witness :
    applySandboxSegmentsToOriginal exRegions exBuffer exDoc true =
      SyncResult.ok exDocAfter exRegionsAfter ∧
    ∃ rcs, regionCodes exRegions (parsePairs exBuffer) = some rcs ∧
      exRegionsAfter = shiftCalcGo 0 rcs ∧
      ∀ i (hi : i < rcs.length),
        exRegionsAfter[i]? = some { (rcs.get ⟨i, hi⟩).1 with
          startLine := (rcs.get ⟨i, hi⟩).1.startLine + ((rcs.take i).map lineDelta).sum,
          endLine := (rcs.get ⟨i, hi⟩).1.startLine + ((rcs.take i).map lineDelta).sum
            + ((splitLines (rcs.get ⟨i, hi⟩).2).length : Int) - 1 } :=
  have h : applySandboxSegmentsToOriginal exRegions exBuffer exDoc true =
      SyncResult.ok exDocAfter exRegionsAfter := by decide
  ⟨h, shift_calculus_after_apply exRegions exBuffer exDoc exDocAfter exRegionsAfter h⟩



/-- C6 counterexample: a buffer whose ids are region_0, region_0, region_1
against a session with regions region_0 and region_1: the id region_0 is
parsed twice, yet the sync does not fail — the distinct-id count (2)
matches the region count, so the guard passes, an edit is submitted, and
region_0 takes the code of the last duplicate. -/
theorem duplicate_id_passes_guard :
    (parsedIds exDupBuffer).count "region_0".data = 2 ∧
    applySandboxSegmentsToOriginal exRegions2 exDupBuffer exDoc3 true =
      SyncResult.ok ["B".data, "y".data, "C".data] exRegions2 ∧
    SyncResult.ok ["B".data, "y".data, "C".data] exRegions2 ≠
      SyncResult.delimiterMissing := by
  refine ⟨by decide, by decide, by decide⟩

/-- C6 amended: unknown or duplicate ids are caught only through the
distinct-id count: the sync produces the delimiter-grammar error exactly
when the number of distinct parsed ids differs from the region count; and
when the counts agree but some session region's id is absent from the
parsed map, the cycle aborts through the unchecked `get(region.id)!`
lookup — a failure distinct from the delimiter error — rather than
reporting the delimiter error. -/
theorem id_validation_amended :
    (∀ (regions : List RegionMapping) (text : List Char) (doc : Doc) (ap : Bool),
      applySandboxSegmentsToOriginal regions text doc ap = SyncResult.delimiterMissing ↔
        mapSize (parsePairs text) ≠ regions.length) ∧
    (∀ (regions : List RegionMapping) (text : List Char) (doc : Doc) (ap : Bool),
      mapSize (parsePairs text) = regions.length →
      regionCodes regions (parsePairs text) = none →
      applySandboxSegmentsToOriginal regions text doc ap = SyncResult.idLookupFailed) := by
  constructor
  · intro regions text doc ap
    constructor
    · intro h
      by_contra hg
      unfold applySandboxSegmentsToOriginal at h
      rw [if_neg (fun hcon => hcon hg)] at h
      cases hrc : regionCodes regions (parsePairs text) with
      | none =>
        rw [hrc] at h
        simp at h
      | some rcs =>
        rw [hrc] at h
        cases ap <;> simp at h
    · intro h
      unfold applySandboxSegmentsToOriginal
      rw [if_pos h]
  · intro regions text doc ap hg hrc
    unfold applySandboxSegmentsToOriginal
    rw [if_neg (fun hcon => hcon hg)]
    rw [hrc]

/-- C6 amended witness: the unknown-id buffer (ids region_0 and region_5)
against the two-region session: counts agree, region_1's lookup fails, and
the cycle aborts with the lookup failure, not the delimiter error. -/
theorem id_validation_amended_witness :
    (applySandboxSegmentsToOriginal exRegions2 exUnknownBuffer exDoc3 true =
        SyncResult.delimiterMissing ↔
      mapSize (parsePairs exUnknownBuffer) ≠ exRegions2.length) ∧
    (mapSize (parsePairs exUnknownBuffer) = exRegions2.length ∧
      regionCodes exRegions2 (parsePairs exUnknownBuffer) = none ∧
      applySandboxSegmentsToOriginal exRegions2 exUnknownBuffer exDoc3 true =
        SyncResult.idLookupFailed) :=
  ⟨id_validation_amended.1 exRegions2 exUnknownBuffer exDoc3 true,
    by decide, by decide,
    id_validation_amended.2 exRegions2 exUnknownBuffer exDoc3 true
      (by decide) (by decide)⟩

end RegionSync
